import Mathlib

/-!
Verification development for the Nomad search endpoint
(`nomad/search_endpoint.go` and its companion transfer-object files).

Modelling conventions:
* Go strings are modelled at the character level (`String` / `s.data : List Char`);
  on the ASCII identifiers and prefixes used by the endpoint the byte-level Go
  operations (`strings.HasPrefix`, `strings.Count`, `len`, slicing, `<`)
  coincide with their character-level counterparts used here.
* A `go-memdb` result iterator is modelled as the list of records it yields, in
  order; `iter.Next()` pops the head.  A store lookup
  (`getResourceIter` together with the state-store `...ByIDPrefix` call it
  dispatches to) is modelled as a function
  `Context → String → Except String (List Record)` from context and prefix to
  either an error message or the record list.
* Machine integers only appear as loop counters and lengths, far from overflow;
  they are modelled as `Nat`.
-/

/-- Context is the enumerated scope of a search, from `structs` (the search
transfer objects file).  The `fuzzy` union tag is referenced by
`search_endpoint.go` (`structs.Fuzzy`); its declaration is outside the provided
sources, the spec describes it as the union tag for the fuzzy-eligible subset. -/
inductive Context
  | allocs
  | deployments
  | evals
  | jobs
  | nodes
  | namespaces
  | quotas
  | recommendations
  | scalingPolicies
  | plugins
  | volumes
  | groups
  | services
  | tasks
  | images
  | commands
  | classes
  | all
  | fuzzy
deriving DecidableEq, Repr

/-- Resource record, the closed variant type behind the `raw.(type)` switches in
`getMatches` and `getFuzzyMatches`.  Fields carried are exactly the ones the
endpoint reads: the identifying field and, for the fuzzy-eligible kinds, the
name field.  `enterpriseRaw` stands for a record of an unrecognized kind
(the `default` branch of the type switch). -/
inductive Record
  | job (id name : String)
  | evaluation (id : String)
  | allocation (id name : String)
  | node (id name : String)
  | deployment (id : String)
  | csiPlugin (id : String)
  | csiVolume (id : String)
  | scalingPolicy (id : String)
  | nsRec (name : String)
  | enterpriseRaw (tag : String)
deriving DecidableEq, Repr

/-- Modelled from the spec: `getEnterpriseMatch` is the extension hook consulted
by the `default` branch of `getMatches`; its body is outside the provided
sources, and the spec (§4.1, §7 extension-hook miss) says the open-source build
ships a no-op implementation that recognizes nothing. -/
def getEnterpriseMatch (_r : Record) : Option String := none

/-- Identifier extraction performed by the type switch in `getMatches`:
every ID-carrying kind contributes its `ID`, a namespace contributes its
`Name`, and anything else is delegated to `getEnterpriseMatch`; `none` means
the record is logged and skipped. -/
def recordId : Record → Option String
  | .job i _ => some i
  | .evaluation i => some i
  | .allocation i _ => some i
  | .node i _ => some i
  | .deployment i => some i
  | .csiPlugin i => some i
  | .csiVolume i => some i
  | .scalingPolicy i => some i
  | .nsRec n => some n
  | r => getEnterpriseMatch r

/-- Name extraction performed by the type switch in `getFuzzyMatches`; kinds
outside the fuzzy-eligible subset leave `name` at the Go zero value `""`. -/
def recordName : Record → String
  | .node _ n => n
  | .nsRec n => n
  | .job _ n => n
  | .allocation _ n => n
  | _ => ""

/-- truncateLimit is the cap on records examined per context (source constant 20). -/
def truncateLimit : Nat := 20

/-- Character-level model of `strings.HasPrefix id pfx` (argument order:
the candidate prefix first, then the string). -/
def strStartsWith (pfx s : String) : Bool :=
  pfx.data.isPrefixOf s.data

/-- Haystack scan behind `strings.Contains`: does `pat` occur contiguously? -/
def listContains (pat : List Char) : List Char → Bool
  | [] => pat.isEmpty
  | c :: t => pat.isPrefixOf (c :: t) || listContains pat t

/-- Character-level model of `strings.Contains s pat`. -/
def strContains (s pat : String) : Bool :=
  listContains pat.data s.data

/-- ossContexts, the oss contexts searched for a given prefix (source order). -/
def ossContexts : List Context :=
  [.allocs, .jobs, .nodes, .evals, .deployments, .plugins, .volumes,
   .scalingPolicies, .namespaces]

/-- fuzzyContexts, the contexts enabled for fuzzy search (source order). -/
def fuzzyContexts : List Context :=
  [.nodes, .namespaces, .jobs, .allocs]

/-- Modelled from the spec: `allContexts` is the package-level list expanded for
the `all` union tag; its declaration is outside the provided sources, and the
spec (§4.1) says it is the full enumerated set of top-level contexts in a fixed
order — in the open-source build, exactly `ossContexts`. -/
def allContexts : List Context := ossContexts

/-- expandContext resolves a union tag to the concrete contexts it stands for. -/
def expandContext (context : Context) : List Context :=
  match context with
  | .all => allContexts
  | .fuzzy => fuzzyContexts
  | c => [c]

/-- Loop body of `getMatches`: consume up to `n` records, extract an identifier
per record kind, keep those that literally start with `pfx` (skipped and
rejected records still use up an iteration), then peek once more for the
truncation flag. -/
def getMatchesAux (pfx : String) : Nat → List Record → List String × Bool
  | 0, l => ([], !l.isEmpty)
  | _ + 1, [] => ([], false)
  | n + 1, r :: rest =>
    match recordId r with
    | none => getMatchesAux pfx n rest
    | some id =>
      if strStartsWith pfx id then
        (id :: (getMatchesAux pfx n rest).1, (getMatchesAux pfx n rest).2)
      else
        getMatchesAux pfx n rest

/-- getMatches extracts up to `truncateLimit` matching identifiers from an
iterator and reports whether more records remained. -/
def getMatches (iter : List Record) (pfx : String) : List String × Bool :=
  getMatchesAux pfx truncateLimit iter

/-- roundUUIDDownIfOdd: if the hyphen-ignoring length of a prefix is odd,
drop the last character; jobs are excluded. -/
def dropLastChar (s : String) : String := ⟨s.data.dropLast⟩

/-- roundUUIDDownIfOdd, translated from the source. -/
def roundUUIDDownIfOdd (pfx : String) (context : Context) : String :=
  if context = Context.jobs then pfx
  else
    let numHyphens := pfx.data.count '-'
    let l := pfx.length - numHyphens
    if l % 2 = 0 then pfx
    else dropLastChar pfx


/-!
Model of the Go `regexp` library as used by `FuzzySearch`
(`regexp.MustCompile(args.Text)` / `re.FindStringIndex(name)`), restricted to
the pattern fragment exercised by the endpoint's caller-supplied text: word
characters, hyphen, underscore, space (matched literally) and `.` (matches any
character except a newline).  Any other character is conservatively mapped to a
compile failure; in particular a lone `(` is a Go compile error, on which
`MustCompile` panics.
-/

/-- A compiled pattern token: a literal character, or `.`. -/
inductive RTok
  | lit (c : Char)
  | dot
deriving DecidableEq, Repr

/-- Does a token match one character? `.` matches anything but a newline. -/
def rtokMatches : RTok → Char → Bool
  | .lit c, a => c == a
  | .dot, a => !(a == '\n')

/-- Compile one pattern character. -/
def compileTok (c : Char) : Option RTok :=
  if c == '.' then some .dot
  else if c.isAlphanum || c == '-' || c == '_' || c == ' ' then some (.lit c)
  else none

/-- Model of `regexp.Compile`; `none` is a compile error, on which
`regexp.MustCompile` panics. -/
def compileRegex (s : String) : Option (List RTok) :=
  s.data.mapM compileTok

/-- Do the tokens match a leading segment of `cs`? -/
def toksMatchAt (ts : List RTok) (cs : List Char) : Bool :=
  match ts, cs with
  | [], _ => true
  | _ :: _, [] => false
  | t :: ts, c :: cs => rtokMatches t c && toksMatchAt ts cs

/-- Leftmost match position of a compiled pattern, the first component of Go's
`re.FindStringIndex`; `none` when there is no match. -/
def reFind (ts : List RTok) : List Char → Option Nat
  | [] => if toksMatchAt ts [] then some 0 else none
  | c :: cs =>
    if toksMatchAt ts (c :: cs) then some 0
    else (reFind ts cs).map (· + 1)

/-- Leftmost match position within a string. -/
def reFindS (ts : List RTok) (s : String) : Option Nat :=
  reFind ts s.data

/-- First position at which `pat` occurs as a literal contiguous sublist; the
reference notion of literal substring search that the spec ascribes to the
fuzzy matcher. -/
def subIdx (pat : List Char) : List Char → Option Nat
  | [] => if pat.isPrefixOf ([] : List Char) then some 0 else none
  | c :: cs =>
    if pat.isPrefixOf (c :: cs) then some 0
    else (subIdx pat cs).map (· + 1)

/-- A plain pattern character: compiled to a literal token, with no
metacharacter reading. -/
def isPlainLit (c : Char) : Bool :=
  !(c == '.') && (c.isAlphanum || c == '-' || c == '_' || c == ' ')

/-- One scanned fuzzy match: the name and the position of its first match
(the `match` struct local to `getFuzzyMatches`). -/
structure FMatch where
  value : String
  pos : Nat
deriving DecidableEq, Repr

/-- Reflexive total order realized by the `sort.Slice` comparison in
`getFuzzyMatches`: earlier match position first, then shorter name, then
lexicographically smaller name. -/
def matchLE (a b : FMatch) : Prop :=
  a.pos < b.pos ∨
    (a.pos = b.pos ∧
      (a.value.length < b.value.length ∨
        (a.value.length = b.value.length ∧ a.value ≤ b.value)))

instance : DecidableRel matchLE := fun a b =>
  inferInstanceAs (Decidable (a.pos < b.pos ∨
    (a.pos = b.pos ∧
      (a.value.length < b.value.length ∨
        (a.value.length = b.value.length ∧ a.value ≤ b.value)))))

instance : IsTotal FMatch matchLE where
  total a b := by
    rcases Nat.lt_trichotomy a.pos b.pos with h | h | h
    · exact Or.inl (Or.inl h)
    · rcases Nat.lt_trichotomy a.value.length b.value.length with h2 | h2 | h2
      · exact Or.inl (Or.inr ⟨h, Or.inl h2⟩)
      · rcases le_total a.value b.value with h3 | h3
        · exact Or.inl (Or.inr ⟨h, Or.inr ⟨h2, h3⟩⟩)
        · exact Or.inr (Or.inr ⟨h.symm, Or.inr ⟨h2.symm, h3⟩⟩)
      · exact Or.inr (Or.inr ⟨h.symm, Or.inl h2⟩)
    · exact Or.inr (Or.inl h)

instance : IsTrans FMatch matchLE where
  trans a b c hab hbc := by
    rcases hab with hab | ⟨hp1, hab⟩
    · rcases hbc with hbc | ⟨hp2, _⟩
      · exact Or.inl (hab.trans hbc)
      · exact Or.inl (hp2 ▸ hab)
    · rcases hbc with hbc | ⟨hp2, hbc⟩
      · exact Or.inl (hp1 ▸ hbc)
      · refine Or.inr ⟨hp1.trans hp2, ?_⟩
        rcases hab with hab | ⟨hl1, hab⟩
        · rcases hbc with hbc | ⟨hl2, _⟩
          · exact Or.inl (hab.trans hbc)
          · exact Or.inl (hl2 ▸ hab)
        · rcases hbc with hbc | ⟨hl2, hbc⟩
          · exact Or.inl (hl1 ▸ hbc)
          · exact Or.inr ⟨hl1.trans hl2, hab.trans hbc⟩

/-- Scan loop of `getFuzzyMatches`: consume up to `n` records, extract the name
per record kind, and record `(name, first match position)` whenever the
compiled pattern matches; non-matching records still use up an iteration. -/
def scanFuzzy (ts : List RTok) : Nat → List Record → List FMatch × Bool
  | 0, l => ([], !l.isEmpty)
  | _ + 1, [] => ([], false)
  | n + 1, r :: rest =>
    match reFindS ts (recordName r) with
    | some p =>
      ((⟨recordName r, p⟩ : FMatch) :: (scanFuzzy ts n rest).1, (scanFuzzy ts n rest).2)
    | none => scanFuzzy ts n rest

/-- getFuzzyMatches: scan up to `truncateLimit` records, sort the matches by
(position, name length, name), return the names in sorted order together with
the truncation flag from one more iterator peek. -/
def getFuzzyMatches (iter : List Record) (ts : List RTok) : List String × Bool :=
  ((List.insertionSort matchLE (scanFuzzy ts truncateLimit iter).1).map
      (fun m => m.value),
    (scanFuzzy ts truncateLimit iter).2)

/-- Ranking order induced on returned names: earlier first-match position
first, then shorter name, then lexicographically smaller name. -/
def nameRankLE (ts : List RTok) (a b : String) : Prop :=
  (reFindS ts a).getD 0 < (reFindS ts b).getD 0 ∨
    ((reFindS ts a).getD 0 = (reFindS ts b).getD 0 ∧
      (a.length < b.length ∨ (a.length = b.length ∧ a ≤ b)))


/-!
Endpoint pipeline.  The access-control object, the gate `sufficientSearchPerms`
and the context-list function `searchContexts` are called by
`search_endpoint.go` but declared outside the provided sources; they are
modelled from the spec below.  The store boundary is a function
`f : Context → String → Except String (List Record)` standing for
`getResourceIter` applied to a state-store snapshot; the per-request
record-level namespace filter (spec §4.2) is considered already folded into
`f`, which is exact for the requests studied here (no ACL object).
-/

/-- Modelled from the spec: the access-control object (§3) answers whether the
caller may read nodes and whether it holds the read-job capability in a given
namespace; a `none` ACL means unrestricted. -/
structure ACL where
  nodeRead : Bool
  jobRead : String → Bool

/-- Modelled from the spec: `sufficientSearchPerms` (§4.2) — nil ACL admits
everything; the node context requires the read-node capability; the fuzzy
union tag requires at least one of its constituents' capabilities; every other
context requires the namespace-scoped read-job capability. -/
def sufficientSearchPerms (acl : Option ACL) (ns : String) (context : Context) : Bool :=
  match acl with
  | none => true
  | some a =>
    match context with
    | .nodes => a.nodeRead
    | .fuzzy => a.nodeRead || a.jobRead ns
    | _ => a.jobRead ns

/-- Modelled from the spec: `searchContexts` (§2 control flow, §4.1, §4.2) —
the requested context is expanded by the Context Catalog and restricted to the
contexts the Access Gate admits for this caller. -/
def searchContexts (acl : Option ACL) (ns : String) (context : Context) : List Context :=
  (expandContext context).filter (fun c => sufficientSearchPerms acl ns c)

/-- Whitelist of prefix-format error messages swallowed per-context by
`PrefixSearch` (the `strings.Contains` switch on the error text). -/
def isWhitelistedError (e : String) : Bool :=
  strContains e "Invalid UUID: encoding/hex" ||
  strContains e "UUID have 36 characters" ||
  strContains e "must be even length" ||
  strContains e "UUID should have maximum of 4"

/-- Did an iterator acquisition either succeed or fail with a whitelisted
prefix-format error? -/
def okOrWl : Except String (List Record) → Bool
  | .ok _ => true
  | .error e => isWhitelistedError e

/-- Did an iterator acquisition succeed? -/
def exceptIsOk : Except String (List Record) → Bool
  | .ok _ => true
  | .error _ => false

/-- Iterator-acquisition loop of `PrefixSearch`: query each context with the
normalized prefix; a whitelisted error skips the context, any other error
aborts.  The second component records, in order, the contexts for which the
store was actually consulted (an observation used to state that a denied
request opens no iterator). -/
def buildIters (f : Context → String → Except String (List Record)) (pfx : String) :
    List Context → Except String (List (Context × List Record)) × List Context
  | [] => (.ok [], [])
  | c :: cs =>
    match f c pfx with
    | .error e =>
      if isWhitelistedError e then
        ((buildIters f pfx cs).1, c :: (buildIters f pfx cs).2)
      else
        (.error e, [c])
    | .ok l =>
      ((buildIters f pfx cs).1.map (fun xs => (c, l) :: xs),
        c :: (buildIters f pfx cs).2)

/-- Iterator-acquisition loop of `FuzzySearch`: every context is queried with
the empty prefix and any error aborts the request. -/
def buildItersFuzzy (f : Context → String → Except String (List Record)) :
    List Context → Except String (List (Context × List Record)) × List Context
  | [] => (.ok [], [])
  | c :: cs =>
    match f c "" with
    | .error e => (.error e, [c])
    | .ok l =>
      ((buildItersFuzzy f cs).1.map (fun xs => (c, l) :: xs),
        c :: (buildItersFuzzy f cs).2)

/-- Response body: the matches map and the truncations map, keyed by context.
Go maps are unordered; they are represented as association lists with the keys
in iterator-acquisition order, each key occurring at most once. -/
structure SearchResult where
  Matches : List (Context × List String)
  Truncations : List (Context × Bool)
deriving DecidableEq, Repr

/-- Errors surfaced to the caller. -/
inductive SearchError
  | permissionDenied
  | storeError (e : String)
deriving DecidableEq, Repr

/-- Population of the two response maps from the acquired iterators
(`for k, v := range iters` in `PrefixSearch`). -/
def assembleResult (pfx : String) (iters : List (Context × List Record)) : SearchResult :=
  { Matches := iters.map (fun x => (x.1, (getMatches x.2 pfx).1)),
    Truncations := iters.map (fun x => (x.1, (getMatches x.2 pfx).2)) }

/-- Decidable equality for `Except`, used to evaluate concrete outcomes. -/
instance {e a : Type} [DecidableEq e] [DecidableEq a] : DecidableEq (Except e a) := fun x y =>
  match x, y with
  | .ok v, .ok w =>
    if h : v = w then isTrue (by rw [h]) else isFalse (by intro hh; cases hh; exact h rfl)
  | .error v, .error w =>
    if h : v = w then isTrue (by rw [h]) else isFalse (by intro hh; cases hh; exact h rfl)
  | .ok _, .error _ => isFalse (by intro hh; cases hh)
  | .error _, .ok _ => isFalse (by intro hh; cases hh)

/-- Outcome of a prefix-search request, together with the contexts for which a
store iterator was opened. -/
structure PrefixOutcome where
  result : Except SearchError SearchResult
  opened : List Context
deriving DecidableEq

/-- PrefixSearch: gate the request, expand the context, acquire one iterator
per admitted context under the normalized prefix (`roundUUIDDownIfOdd` applied
with the requested — not the concrete — context), and collect matches against
the original caller-supplied prefix. -/
def PrefixSearch (acl : Option ACL) (ns : String) (reqContext : Context) (pfx : String)
    (f : Context → String → Except String (List Record)) : PrefixOutcome :=
  if sufficientSearchPerms acl ns reqContext then
    match buildIters f (roundUUIDDownIfOdd pfx reqContext) (searchContexts acl ns reqContext) with
    | (.error e, o) => ⟨.error (.storeError e), o⟩
    | (.ok iters, o) => ⟨.ok (assembleResult pfx iters), o⟩
  else ⟨.error .permissionDenied, []⟩

/-- Population of the two response maps in `FuzzySearch`. -/
def assembleFuzzyResult (ts : List RTok) (iters : List (Context × List Record)) : SearchResult :=
  { Matches := iters.map (fun x => (x.1, (getFuzzyMatches x.2 ts).1)),
    Truncations := iters.map (fun x => (x.1, (getFuzzyMatches x.2 ts).2)) }

/-- Outcome of a fuzzy-search request: `result = none` models a panic of
`regexp.MustCompile` on a malformed caller-supplied pattern (the request
aborts without producing any value), `some` a normal return. -/
structure FuzzyOutcome where
  result : Option (Except SearchError SearchResult)
  opened : List Context
deriving DecidableEq

/-- FuzzySearch: gate the request against the fuzzy union tag, acquire one
iterator per admitted fuzzy context with an empty prefix, then compile the
caller-supplied text with `regexp.MustCompile` — a panic if it is not a valid
pattern — and rank matches per context. -/
def FuzzySearch (acl : Option ACL) (ns : String) (text : String)
    (f : Context → String → Except String (List Record)) : FuzzyOutcome :=
  if sufficientSearchPerms acl ns Context.fuzzy then
    match buildItersFuzzy f (searchContexts acl ns Context.fuzzy) with
    | (.error e, o) => ⟨some (.error (.storeError e)), o⟩
    | (.ok iters, o) =>
      match compileRegex text with
      | none => ⟨none, o⟩
      | some ts => ⟨some (.ok (assembleFuzzyResult ts iters)), o⟩
  else ⟨some (.error .permissionDenied), []⟩

/-- Matches returned for one context by a prefix-search outcome; `none` when
the request failed or the context has no entry in the matches map. -/
def matchesOf (o : PrefixOutcome) (c : Context) : Option (List String) :=
  match o.result with
  | .ok r => r.Matches.lookup c
  | .error _ => none

/-- Truncation flag returned for one context by a prefix-search outcome. -/
def truncsOf (o : PrefixOutcome) (c : Context) : Option Bool :=
  match o.result with
  | .ok r => r.Truncations.lookup c
  | .error _ => none

/-- Key set (in map-population order) of the matches map of a successful
prefix-search outcome. -/
def keysOfResult (o : PrefixOutcome) : List Context :=
  match o.result with
  | .ok r => r.Matches.map Prod.fst
  | .error _ => []


/-- Did a prefix-search request produce a normal (possibly empty) response? -/
def resultIsOk (o : PrefixOutcome) : Bool :=
  match o.result with
  | .ok _ => true
  | .error _ => false

/-- Concrete store snapshot refuting the all-versus-single equivalence: the
jobs collection holds twenty-one identifiers starting with "wea" followed by
the job "web"; every collection answers a prefix query with exactly its
records carrying that identifier prefix, in identifier order. -/
def cexJobIds : List String :=
  ["wea01", "wea02", "wea03", "wea04", "wea05", "wea06", "wea07", "wea08",
   "wea09", "wea10", "wea11", "wea12", "wea13", "wea14", "wea15", "wea16",
   "wea17", "wea18", "wea19", "wea20", "wea21", "web"]

/-- Store function for the counterexample above. -/
def cexStore (c : Context) (pfx : String) : Except String (List Record) :=
  match c with
  | .jobs => .ok ((cexJobIds.filter (fun i => strStartsWith pfx i)).map
      (fun i => Record.job i i))
  | _ => .ok []

/-- Concrete store snapshot in which the nodes collection rejects the prefix
with a whitelisted UUID-format error while every other collection is empty. -/
def cexWlStore (c : Context) (_pfx : String) : Except String (List Record) :=
  match c with
  | .nodes => .error "node index error: Invalid UUID: encoding/hex: invalid byte"
  | _ => .ok []

/-- Iterators acquired when no fatal error occurs: one entry per context whose
store lookup succeeded, in context order. -/
def itersSpec (f : Context → String → Except String (List Record)) (pfx : String)
    (cs : List Context) : List (Context × List Record) :=
  cs.filterMap (fun c =>
    match f c pfx with
    | .ok l => some (c, l)
    | .error _ => none)

/-- Defining equation of the fuzzy scan on a consumed record, stated for use
with abstract names. -/
theorem scanFuzzy_cons (ts : List RTok) (n : Nat) (r : Record) (rest : List Record) :
    scanFuzzy ts (n + 1) (r :: rest)
      = (match reFindS ts (recordName r) with
         | some p => ((⟨recordName r, p⟩ : FMatch) :: (scanFuzzy ts n rest).1,
             (scanFuzzy ts n rest).2)
         | none => scanFuzzy ts n rest) := rfl

/-- The fuzzy scan of an exhausted iterator yields nothing and no truncation. -/
theorem scanFuzzy_nil (ts : List RTok) : ∀ (n : Nat), scanFuzzy ts n ([] : List Record) = ([], false)
  | 0 => rfl
  | _ + 1 => rfl

/-! Helper lemmas about the collector loops. -/

theorem getMatchesAux_starts (pfx : String) : ∀ (n : Nat) (l : List Record),
    ∀ id ∈ (getMatchesAux pfx n l).1, strStartsWith pfx id = true
  | 0, _ => by simp [getMatchesAux]
  | _ + 1, [] => by simp [getMatchesAux]
  | n + 1, r :: rest => by
    have ih := getMatchesAux_starts pfx n rest
    cases h : recordId r with
    | none => simpa [getMatchesAux, h] using ih
    | some id =>
      by_cases hs : strStartsWith pfx id = true
      · simp only [getMatchesAux, h, hs, if_true]
        intro x hx
        rcases List.mem_cons.mp hx with rfl | hx
        · exact hs
        · exact ih x hx
      · simpa [getMatchesAux, h, hs] using ih

theorem getMatchesAux_sublist (pfx : String) : ∀ (n : Nat) (l : List Record),
    (getMatchesAux pfx n l).1.Sublist (l.filterMap recordId)
  | 0, _ => by simp [getMatchesAux]
  | _ + 1, [] => by simp [getMatchesAux]
  | n + 1, r :: rest => by
    have ih := getMatchesAux_sublist pfx n rest
    cases h : recordId r with
    | none => simpa [getMatchesAux, h, List.filterMap_cons] using ih
    | some id =>
      by_cases hs : strStartsWith pfx id = true
      · simpa [getMatchesAux, h, hs, List.filterMap_cons] using ih.cons₂ id
      · simpa [getMatchesAux, h, hs, List.filterMap_cons] using ih.cons id

theorem getMatchesAux_len (pfx : String) : ∀ (n : Nat) (l : List Record),
    (getMatchesAux pfx n l).1.length ≤ n
  | 0, _ => by simp [getMatchesAux]
  | _ + 1, [] => by simp [getMatchesAux]
  | n + 1, r :: rest => by
    have ih := getMatchesAux_len pfx n rest
    cases h : recordId r with
    | none => rw [getMatchesAux]; simp only [h]; omega
    | some id =>
      by_cases hs : strStartsWith pfx id = true
      · rw [getMatchesAux]; simp only [h]; rw [if_pos hs]; simp only [List.length_cons]; omega
      · rw [getMatchesAux]; simp only [h]; rw [if_neg hs]; omega

theorem getMatchesAux_trunc (pfx : String) : ∀ (n : Nat) (l : List Record),
    ((getMatchesAux pfx n l).2 = true ↔ n < l.length)
  | 0, [] => by simp [getMatchesAux]
  | 0, _ :: _ => by simp [getMatchesAux]
  | _ + 1, [] => by simp [getMatchesAux]
  | n + 1, r :: rest => by
    have ih := getMatchesAux_trunc pfx n rest
    cases h : recordId r with
    | none => rw [getMatchesAux]; simp only [h]; rw [ih]; simp only [List.length_cons]; omega
    | some id =>
      by_cases hs : strStartsWith pfx id = true
      · rw [getMatchesAux]; simp only [h]; rw [if_pos hs]; rw [ih]
        simp only [List.length_cons]; omega
      · rw [getMatchesAux]; simp only [h]; rw [if_neg hs]; rw [ih]
        simp only [List.length_cons]; omega

theorem scanFuzzy_trunc (ts : List RTok) : ∀ (n : Nat) (l : List Record),
    ((scanFuzzy ts n l).2 = true ↔ n < l.length)
  | 0, [] => by simp [scanFuzzy]
  | 0, _ :: _ => by simp [scanFuzzy]
  | _ + 1, [] => by simp [scanFuzzy]
  | n + 1, r :: rest => by
    have ih := scanFuzzy_trunc ts n rest
    cases h : reFindS ts (recordName r) with
    | none => rw [scanFuzzy]; simp only [h]; rw [ih]; simp only [List.length_cons]; omega
    | some p => rw [scanFuzzy]; simp only [h]; rw [ih]; simp only [List.length_cons]; omega

theorem scanFuzzy_pos (ts : List RTok) : ∀ (n : Nat) (l : List Record),
    ∀ m ∈ (scanFuzzy ts n l).1, reFindS ts m.value = some m.pos
  | 0, _ => by simp [scanFuzzy]
  | _ + 1, [] => by simp [scanFuzzy]
  | n + 1, r :: rest => by
    have ih := scanFuzzy_pos ts n rest
    cases h : reFindS ts (recordName r) with
    | none => simpa [scanFuzzy, h] using ih
    | some p =>
      simp only [scanFuzzy, h]
      intro m hm
      rcases List.mem_cons.mp hm with rfl | hm
      · exact h
      · exact ih m hm

/-! Helper lemmas about association-list lookup and iterator acquisition. -/

theorem lookup_map_assoc {B : Type} (g : Context → List Record → B) (c : Context) :
    ∀ (iters : List (Context × List Record)),
      List.lookup c (iters.map (fun x => (x.1, g x.1 x.2)))
        = (List.lookup c iters).map (fun l => g c l)
  | [] => by simp [List.lookup]
  | (c1, l1) :: tl => by
    by_cases h : c = c1
    · subst h; simp [List.lookup]
    · have hb : (c == c1) = false := by simp [h]
      simp [List.lookup, hb, lookup_map_assoc g c tl]

theorem lookup_some_mem {B : Type} (c : Context) (v : B) :
    ∀ (xs : List (Context × B)), List.lookup c xs = some v → (c, v) ∈ xs
  | [] => by simp [List.lookup]
  | (k, w) :: tl => by
    intro h
    by_cases hc : c = k
    · subst hc
      simp [List.lookup] at h
      subst h
      exact List.mem_cons_self _ _
    · have hb : (c == k) = false := by simp [hc]
      simp only [List.lookup, hb] at h
      exact List.mem_cons_of_mem _ (lookup_some_mem c v tl h)

theorem mem_itersSpec {f : Context → String → Except String (List Record)}
    {pfx : String} {cs : List Context} {c : Context} {l : List Record}
    (h : (c, l) ∈ itersSpec f pfx cs) : f c pfx = .ok l := by
  rw [itersSpec, List.mem_filterMap] at h
  obtain ⟨c0, _, hg⟩ := h
  cases hf : f c0 pfx with
  | ok l0 =>
    rw [hf] at hg
    simp only [Option.some.injEq, Prod.mk.injEq] at hg
    obtain ⟨rfl, rfl⟩ := hg
    exact hf
  | error e => rw [hf] at hg; cases hg

theorem itersSpec_keys (f : Context → String → Except String (List Record)) (pfx : String) :
    ∀ (cs : List Context),
      (itersSpec f pfx cs).map Prod.fst = cs.filter (fun c => exceptIsOk (f c pfx))
  | [] => by simp [itersSpec]
  | c :: cs => by
    have ih := itersSpec_keys f pfx cs
    cases hf : f c pfx with
    | ok l =>
      simp only [itersSpec, exceptIsOk] at ih ⊢
      simp [List.filterMap_cons, List.filter_cons, hf, ih]
    | error e =>
      simp only [itersSpec, exceptIsOk] at ih ⊢
      simp [List.filterMap_cons, List.filter_cons, hf, ih]

theorem lookup_itersSpec_not_mem (f : Context → String → Except String (List Record))
    (pfx : String) (c : Context) :
    ∀ (cs : List Context), c ∉ cs → List.lookup c (itersSpec f pfx cs) = none
  | [] => by simp [itersSpec, List.lookup]
  | d :: cs => by
    intro h
    have hne : c ≠ d := fun hh => h (hh ▸ List.mem_cons_self d cs)
    have htl : c ∉ cs := fun hh => h (List.mem_cons_of_mem d hh)
    have hb : (c == d) = false := by simp [hne]
    cases hf : f d pfx with
    | ok l =>
      simp only [itersSpec, List.filterMap_cons, hf]
      simp only [List.lookup, hb]
      exact lookup_itersSpec_not_mem f pfx c cs htl
    | error e =>
      simp only [itersSpec, List.filterMap_cons, hf]
      exact lookup_itersSpec_not_mem f pfx c cs htl

theorem lookup_itersSpec (f : Context → String → Except String (List Record))
    (pfx : String) (c : Context) :
    ∀ (cs : List Context), cs.Nodup → c ∈ cs →
      List.lookup c (itersSpec f pfx cs)
        = (match f c pfx with
           | .ok l => some l
           | .error _ => none)
  | [], _, hmem => by cases hmem
  | d :: cs, hnd, hmem => by
    obtain ⟨hd, htl⟩ := List.nodup_cons.mp hnd
    by_cases hc : c = d
    · subst hc
      cases hf : f c pfx with
      | ok l =>
        simp only [itersSpec, List.filterMap_cons, hf]
        simp [List.lookup]
      | error e =>
        simp only [itersSpec, List.filterMap_cons, hf]
        exact lookup_itersSpec_not_mem f pfx c cs hd
    · have hmem' : c ∈ cs := by
        rcases List.mem_cons.mp hmem with h | h
        · exact absurd h hc
        · exact h
      have hb : (c == d) = false := by simp [hc]
      cases hf : f d pfx with
      | ok l =>
        simp only [itersSpec, List.filterMap_cons, hf]
        simp only [List.lookup, hb]
        exact lookup_itersSpec f pfx c cs htl hmem'
      | error e =>
        simp only [itersSpec, List.filterMap_cons, hf]
        exact lookup_itersSpec f pfx c cs htl hmem'

theorem buildIters_ok (f : Context → String → Except String (List Record)) (pfx : String) :
    ∀ (cs : List Context) (iters : List (Context × List Record)),
      (buildIters f pfx cs).1 = .ok iters →
      iters = itersSpec f pfx cs ∧ ∀ c ∈ cs, okOrWl (f c pfx) = true
  | [], iters => by
    intro h
    simp only [buildIters, Except.ok.injEq] at h
    subst h
    simp [itersSpec]
  | c :: cs, iters => by
    intro h
    cases hf : f c pfx with
    | error e =>
      cases hw : isWhitelistedError e with
      | true =>
        rw [buildIters] at h
        simp only [hf, hw, if_true] at h
        obtain ⟨h1, h2⟩ := buildIters_ok f pfx cs iters h
        have hskip : itersSpec f pfx (c :: cs) = itersSpec f pfx cs := by
          simp only [itersSpec, List.filterMap_cons, hf]
        refine ⟨h1.trans hskip.symm, ?_⟩
        intro d hd
        rcases List.mem_cons.mp hd with rfl | hd
        · simp [okOrWl, hf, hw]
        · exact h2 d hd
      | false =>
        rw [buildIters] at h
        simp only [hf, hw] at h
        cases h
    | ok l =>
      rw [buildIters] at h
      simp only [hf] at h
      cases hb : (buildIters f pfx cs).1 with
      | error e => rw [hb] at h; cases h
      | ok xs =>
        rw [hb] at h
        simp only [Except.map, Except.ok.injEq] at h
        obtain ⟨h1, h2⟩ := buildIters_ok f pfx cs xs hb
        subst h
        constructor
        · simp [itersSpec, List.filterMap_cons, hf]
          exact h1
        · intro d hd
          rcases List.mem_cons.mp hd with rfl | hd
          · simp [okOrWl, hf]
          · exact h2 d hd

theorem buildIters_all_ok (f : Context → String → Except String (List Record)) (pfx : String) :
    ∀ (cs : List Context), (∀ c ∈ cs, okOrWl (f c pfx) = true) →
      (buildIters f pfx cs).1 = .ok (itersSpec f pfx cs)
  | [] => by intro _; simp [buildIters, itersSpec]
  | c :: cs => by
    intro h
    have ih := buildIters_all_ok f pfx cs (fun d hd => h d (List.mem_cons_of_mem c hd))
    have hc := h c (List.mem_cons_self c cs)
    cases hf : f c pfx with
    | error e =>
      have hw : isWhitelistedError e = true := by
        rw [hf] at hc
        simpa [okOrWl] using hc
      rw [buildIters]
      simp only [hf, hw, if_true, ih]
      simp only [itersSpec, List.filterMap_cons, hf]
    | ok l =>
      rw [buildIters]
      simp only [hf, ih, Except.map]
      simp only [itersSpec, List.filterMap_cons, hf]

theorem buildIters_fatal (f : Context → String → Except String (List Record)) (pfx : String) :
    ∀ (cs : List Context) (c : Context), c ∈ cs → okOrWl (f c pfx) = false →
      ∃ e, (buildIters f pfx cs).1 = .error e ∧ isWhitelistedError e = false ∧
        ∃ c2, c2 ∈ cs ∧ f c2 pfx = .error e
  | [], c => by intro h; cases h
  | d :: cs, c => by
    intro hmem hbad
    cases hf : f d pfx with
    | ok l =>
      have hc : c ∈ cs := by
        rcases List.mem_cons.mp hmem with rfl | h
        · rw [hf] at hbad; simp [okOrWl] at hbad
        · exact h
      obtain ⟨e, he, hwl, c2, hc2, hfe⟩ := buildIters_fatal f pfx cs c hc hbad
      refine ⟨e, ?_, hwl, c2, List.mem_cons_of_mem d hc2, hfe⟩
      rw [buildIters]
      simp only [hf, he, Except.map]
    | error e0 =>
      cases hw : isWhitelistedError e0 with
      | true =>
        have hc : c ∈ cs := by
          rcases List.mem_cons.mp hmem with rfl | h
          · rw [hf] at hbad; simp [okOrWl, hw] at hbad
          · exact h
        obtain ⟨e, he, hwl, c2, hc2, hfe⟩ := buildIters_fatal f pfx cs c hc hbad
        refine ⟨e, ?_, hwl, c2, List.mem_cons_of_mem d hc2, hfe⟩
        rw [buildIters]
        simp only [hf, hw, if_true, he]
      | false =>
        refine ⟨e0, ?_, hw, d, List.mem_cons_self d cs, hf⟩
        rw [buildIters]
        simp only [hf, hw]
        rfl

theorem buildItersFuzzy_ok (f : Context → String → Except String (List Record)) :
    ∀ (cs : List Context) (iters : List (Context × List Record)),
      (buildItersFuzzy f cs).1 = .ok iters →
      iters = itersSpec f "" cs ∧ ∀ c ∈ cs, ∃ l, f c "" = .ok l
  | [], iters => by
    intro h
    simp only [buildItersFuzzy, Except.ok.injEq] at h
    subst h
    simp [itersSpec]
  | c :: cs, iters => by
    intro h
    cases hf : f c "" with
    | error e =>
      rw [buildItersFuzzy] at h
      simp only [hf] at h
      cases h
    | ok l =>
      rw [buildItersFuzzy] at h
      simp only [hf] at h
      cases hb : (buildItersFuzzy f cs).1 with
      | error e => rw [hb] at h; cases h
      | ok xs =>
        rw [hb] at h
        simp only [Except.map, Except.ok.injEq] at h
        obtain ⟨h1, h2⟩ := buildItersFuzzy_ok f cs xs hb
        subst h
        constructor
        · simp only [itersSpec, List.filterMap_cons, hf]
          rw [← itersSpec, h1]
        · intro d hd
          rcases List.mem_cons.mp hd with rfl | hd
          · exact ⟨l, hf⟩
          · exact h2 d hd

/-! Helper lemmas about context expansion. -/

theorem expandContext_nodup (c : Context) : (expandContext c).Nodup := by
  cases c <;> decide

theorem searchContexts_none (ns : String) (c : Context) :
    searchContexts none ns c = expandContext c := by
  rw [searchContexts]
  rw [List.filter_eq_self.mpr]
  intro a _
  rfl

theorem searchContexts_nodup (acl : Option ACL) (ns : String) (c : Context) :
    (searchContexts acl ns c).Nodup :=
  (expandContext_nodup c).filter _

theorem mem_ossContexts_expand (c : Context) (h : c ∈ ossContexts) :
    expandContext c = [c] := by
  cases c <;> first
    | rfl
    | (exfalso; revert h; decide)

/-! Outcome-level characterizations of the two endpoints (ACL disabled). -/

theorem matchesOf_eq (f : Context → String → Except String (List Record))
    (ns : String) (reqContext : Context) (pfx : String) (c : Context) :
    matchesOf (PrefixSearch none ns reqContext pfx f) c =
      (match (buildIters f (roundUUIDDownIfOdd pfx reqContext)
          (searchContexts none ns reqContext)).1 with
       | .error _ => none
       | .ok iters => (List.lookup c iters).map (fun l => (getMatches l pfx).1)) := by
  have hps : PrefixSearch none ns reqContext pfx f =
      (match buildIters f (roundUUIDDownIfOdd pfx reqContext)
          (searchContexts none ns reqContext) with
       | (.error e, o) => ⟨.error (.storeError e), o⟩
       | (.ok iters, o) => ⟨.ok (assembleResult pfx iters), o⟩) := rfl
  rw [hps]
  rcases hb : buildIters f (roundUUIDDownIfOdd pfx reqContext)
      (searchContexts none ns reqContext) with ⟨r, op⟩
  cases r with
  | error e => simp [matchesOf]
  | ok iters =>
    simp only [matchesOf, assembleResult]
    exact lookup_map_assoc (fun _ l => (getMatches l pfx).1) c iters

theorem truncsOf_eq (f : Context → String → Except String (List Record))
    (ns : String) (reqContext : Context) (pfx : String) (c : Context) :
    truncsOf (PrefixSearch none ns reqContext pfx f) c =
      (match (buildIters f (roundUUIDDownIfOdd pfx reqContext)
          (searchContexts none ns reqContext)).1 with
       | .error _ => none
       | .ok iters => (List.lookup c iters).map (fun l => (getMatches l pfx).2)) := by
  have hps : PrefixSearch none ns reqContext pfx f =
      (match buildIters f (roundUUIDDownIfOdd pfx reqContext)
          (searchContexts none ns reqContext) with
       | (.error e, o) => ⟨.error (.storeError e), o⟩
       | (.ok iters, o) => ⟨.ok (assembleResult pfx iters), o⟩) := rfl
  rw [hps]
  rcases hb : buildIters f (roundUUIDDownIfOdd pfx reqContext)
      (searchContexts none ns reqContext) with ⟨r, op⟩
  cases r with
  | error e => simp [truncsOf]
  | ok iters =>
    simp only [truncsOf, assembleResult]
    exact lookup_map_assoc (fun _ l => (getMatches l pfx).2) c iters

theorem assembleResult_keys (pfx : String) (iters : List (Context × List Record)) :
    (assembleResult pfx iters).Matches.map Prod.fst = iters.map Prod.fst ∧
    (assembleResult pfx iters).Truncations.map Prod.fst = iters.map Prod.fst := by
  constructor <;>
    (simp only [assembleResult, List.map_map]; rfl)

theorem assembleFuzzyResult_keys (ts : List RTok) (iters : List (Context × List Record)) :
    (assembleFuzzyResult ts iters).Matches.map Prod.fst = iters.map Prod.fst ∧
    (assembleFuzzyResult ts iters).Truncations.map Prod.fst = iters.map Prod.fst := by
  constructor <;>
    (simp only [assembleFuzzyResult, List.map_map]; rfl)

theorem prefix_result_ok (f : Context → String → Except String (List Record))
    (ns : String) (reqContext : Context) (pfx : String) (res : SearchResult)
    (h : (PrefixSearch none ns reqContext pfx f).result = .ok res) :
    (buildIters f (roundUUIDDownIfOdd pfx reqContext)
        (searchContexts none ns reqContext)).1
      = .ok (itersSpec f (roundUUIDDownIfOdd pfx reqContext) (searchContexts none ns reqContext)) ∧
    res = assembleResult pfx
      (itersSpec f (roundUUIDDownIfOdd pfx reqContext) (searchContexts none ns reqContext)) := by
  have hps : PrefixSearch none ns reqContext pfx f =
      (match buildIters f (roundUUIDDownIfOdd pfx reqContext)
          (searchContexts none ns reqContext) with
       | (.error e, o) => ⟨.error (.storeError e), o⟩
       | (.ok iters, o) => ⟨.ok (assembleResult pfx iters), o⟩) := rfl
  rw [hps] at h
  rcases hb : buildIters f (roundUUIDDownIfOdd pfx reqContext)
      (searchContexts none ns reqContext) with ⟨r, op⟩
  rw [hb] at h
  cases r with
  | error e => cases h
  | ok iters =>
    simp only [Except.ok.injEq] at h
    have hb1 : (buildIters f (roundUUIDDownIfOdd pfx reqContext)
        (searchContexts none ns reqContext)).1 = .ok iters := by rw [hb]
    obtain ⟨hspec, _⟩ := buildIters_ok f (roundUUIDDownIfOdd pfx reqContext)
      (searchContexts none ns reqContext) iters hb1
    subst hspec
    exact ⟨rfl, h.symm⟩

theorem fuzzy_result_ok (f : Context → String → Except String (List Record))
    (ns : String) (text : String) (res : SearchResult)
    (h : (FuzzySearch none ns text f).result = some (.ok res)) :
    ∃ ts, compileRegex text = some ts ∧
      (buildItersFuzzy f (searchContexts none ns Context.fuzzy)).1
        = .ok (itersSpec f "" (searchContexts none ns Context.fuzzy)) ∧
      res = assembleFuzzyResult ts (itersSpec f "" (searchContexts none ns Context.fuzzy)) := by
  have hfs : FuzzySearch none ns text f =
      (match buildItersFuzzy f (searchContexts none ns Context.fuzzy) with
       | (.error e, o) => ⟨some (.error (.storeError e)), o⟩
       | (.ok iters, o) =>
         match compileRegex text with
         | none => ⟨none, o⟩
         | some ts => ⟨some (.ok (assembleFuzzyResult ts iters)), o⟩) := rfl
  rw [hfs] at h
  rcases hb : buildItersFuzzy f (searchContexts none ns Context.fuzzy) with ⟨r, op⟩
  rw [hb] at h
  cases r with
  | error e => cases h
  | ok iters =>
    cases hc : compileRegex text with
    | none => rw [hc] at h; cases h
    | some ts =>
      rw [hc] at h
      simp only [Option.some.injEq, Except.ok.injEq] at h
      have hb1 : (buildItersFuzzy f (searchContexts none ns Context.fuzzy)).1
          = .ok iters := by rw [hb]
      obtain ⟨hspec, _⟩ := buildItersFuzzy_ok f (searchContexts none ns Context.fuzzy) iters hb1
      subst hspec
      exact ⟨ts, rfl, rfl, h.symm⟩

/-! Claim theorems. -/

/-- C1: for every prefix-mode request and context, every identifier in the
returned matches starts with the exact, original caller-supplied prefix (not
merely the shortened normalized prefix the iterator was obtained with),
accepted identifiers appear in the iterator's order (a sublist of the
identifiers the iterator yields), and at most 20 are returned per context. -/
theorem prefix_matches_exact_ordered_capped
    (f : Context → String → Except String (List Record))
    (ns : String) (reqContext : Context) (pfx : String) (c : Context) (ids : List String)
    (h : matchesOf (PrefixSearch none ns reqContext pfx f) c = some ids) :
    (∀ id ∈ ids, strStartsWith pfx id = true) ∧
    ids.length ≤ truncateLimit ∧
    ∃ l, f c (roundUUIDDownIfOdd pfx reqContext) = .ok l ∧
      ids.Sublist (l.filterMap recordId) := by
  rw [matchesOf_eq] at h
  cases hb : (buildIters f (roundUUIDDownIfOdd pfx reqContext)
      (searchContexts none ns reqContext)).1 with
  | error e => rw [hb] at h; cases h
  | ok iters =>
    rw [hb] at h
    have h2 : Option.map (fun l => (getMatches l pfx).1) (List.lookup c iters)
        = some ids := h
    cases hl : List.lookup c iters with
    | none => rw [hl] at h2; cases h2
    | some l =>
      rw [hl] at h2
      simp only [Option.map_some', Option.some.injEq] at h2
      subst h2
      have hmem := lookup_some_mem c l iters hl
      obtain ⟨hspec, _⟩ := buildIters_ok f (roundUUIDDownIfOdd pfx reqContext)
        (searchContexts none ns reqContext) iters hb
      subst hspec
      have hf := mem_itersSpec hmem
      exact ⟨getMatchesAux_starts pfx truncateLimit l,
        getMatchesAux_len pfx truncateLimit l, l, hf,
        getMatchesAux_sublist pfx truncateLimit l⟩

/-- Witness for C1: a concrete jobs store with three jobs; the first returned
identifier starts with the requested prefix and at most 20 are returned. -/
theorem prefix_matches_exact_witness :
    strStartsWith "web" "web-1" = true ∧
    (["web-1", "web-2"] : List String).length ≤ truncateLimit :=
  ⟨(prefix_matches_exact_ordered_capped
      (fun c _ => if c = Context.jobs then
          .ok [Record.job "web-1" "x", Record.job "web-2" "y", Record.job "api-1" "z"]
        else .ok [])
      "default" Context.jobs "web" Context.jobs ["web-1", "web-2"] (by decide)).1
      "web-1" (by decide),
    (prefix_matches_exact_ordered_capped
      (fun c _ => if c = Context.jobs then
          .ok [Record.job "web-1" "x", Record.job "web-2" "y", Record.job "api-1" "z"]
        else .ok [])
      "default" Context.jobs "web" Context.jobs ["web-1", "web-2"] (by decide)).2.1⟩

/-- C5: for every context, the truncation flag is set iff the candidate pool
of the iterator strictly exceeds 20 records, independent of how many of the
candidates pass the exact-prefix filter (prefix mode) or match the pattern
(fuzzy mode): both collectors consume an iteration per scanned record whether
or not it is kept. -/
theorem truncation_iff_pool_exceeds (iter : List Record) (pfx : String) (ts : List RTok) :
    ((getMatches iter pfx).2 = true ↔ truncateLimit < iter.length) ∧
    ((getFuzzyMatches iter ts).2 = true ↔ truncateLimit < iter.length) :=
  ⟨getMatchesAux_trunc pfx truncateLimit iter, scanFuzzy_trunc ts truncateLimit iter⟩

/-- C6: fuzzy ranking is deterministic (in this embedding the ranker is a pure
function of the iterator contents and the compiled pattern, so two runs are
definitionally equal) and the output sequence has no inversions: it is
pairwise ordered by earlier first-match position, then shorter name, then
lexicographically smaller name. -/
theorem fuzzy_rank_deterministic_sorted (iter : List Record) (ts : List RTok) :
    getFuzzyMatches iter ts = getFuzzyMatches iter ts ∧
    List.Pairwise (nameRankLE ts) (getFuzzyMatches iter ts).1 := by
  refine ⟨rfl, ?_⟩
  have hsorted : List.Pairwise matchLE
      (List.insertionSort matchLE (scanFuzzy ts truncateLimit iter).1) :=
    List.sorted_insertionSort matchLE _
  have hinv : ∀ m ∈ List.insertionSort matchLE (scanFuzzy ts truncateLimit iter).1,
      reFindS ts m.value = some m.pos := by
    intro m hm
    exact scanFuzzy_pos ts truncateLimit iter m
      ((List.perm_insertionSort matchLE _).mem_iff.mp hm)
  have hp2 : List.Pairwise (fun a b : FMatch => nameRankLE ts a.value b.value)
      (List.insertionSort matchLE (scanFuzzy ts truncateLimit iter).1) := by
    refine hsorted.imp_of_mem ?_
    intro a b ha hb hab
    have hva := hinv a ha
    have hvb := hinv b hb
    unfold nameRankLE
    rw [hva, hvb]
    simp only [Option.getD_some]
    exact hab
  show List.Pairwise (nameRankLE ts)
    ((List.insertionSort matchLE (scanFuzzy ts truncateLimit iter).1).map (fun m => m.value))
  rw [List.pairwise_map]
  exact hp2

/-- C9: prefix normalization returns the prefix unchanged for the job context
or when the hyphen-stripped length is even; otherwise it removes exactly the
last character. -/
theorem roundUUIDDownIfOdd_cases (pfx : String) (c : Context) :
    (c = Context.jobs → roundUUIDDownIfOdd pfx c = pfx) ∧
    ((pfx.length - pfx.data.count '-') % 2 = 0 → roundUUIDDownIfOdd pfx c = pfx) ∧
    (c ≠ Context.jobs → (pfx.length - pfx.data.count '-') % 2 = 1 →
      roundUUIDDownIfOdd pfx c = dropLastChar pfx) := by
  refine ⟨?_, ?_, ?_⟩
  · intro h; subst h; rw [roundUUIDDownIfOdd, if_pos rfl]
  · intro h
    by_cases hc : c = Context.jobs
    · simp [roundUUIDDownIfOdd, hc]
    · simp [roundUUIDDownIfOdd, hc, h]
  · intro hc h
    simp [roundUUIDDownIfOdd, hc, h]

/-- Witness for C9 on the spec's node-UUID scenario: an odd hyphen-stripped
prefix for a non-job context loses exactly its last character. -/
theorem roundUUIDDownIfOdd_witness :
    roundUUIDDownIfOdd "e3671fa4-2" Context.nodes = dropLastChar "e3671fa4-2" :=
  (roundUUIDDownIfOdd_cases "e3671fa4-2" Context.nodes).2.2 (by decide) (by decide)

theorem result_eq (f : Context → String → Except String (List Record))
    (ns : String) (reqContext : Context) (pfx : String) :
    (PrefixSearch none ns reqContext pfx f).result =
      (match (buildIters f (roundUUIDDownIfOdd pfx reqContext)
          (searchContexts none ns reqContext)).1 with
       | .error e => .error (.storeError e)
       | .ok iters => .ok (assembleResult pfx iters)) := by
  have hps : PrefixSearch none ns reqContext pfx f =
      (match buildIters f (roundUUIDDownIfOdd pfx reqContext)
          (searchContexts none ns reqContext) with
       | (.error e, o) => ⟨.error (.storeError e), o⟩
       | (.ok iters, o) => ⟨.ok (assembleResult pfx iters), o⟩) := rfl
  rw [hps]
  rcases hb : buildIters f (roundUUIDDownIfOdd pfx reqContext)
      (searchContexts none ns reqContext) with ⟨r, op⟩
  cases r with
  | error e => rfl
  | ok iters => rfl

theorem matchesOf_all_ok (f : Context → String → Except String (List Record))
    (ns pfx : String) (c : Context) (res : SearchResult)
    (hmem : c ∈ ossContexts)
    (hres : (PrefixSearch none ns Context.all pfx f).result = .ok res) :
    matchesOf (PrefixSearch none ns Context.all pfx f) c
      = (match f c (roundUUIDDownIfOdd pfx Context.all) with
         | .ok l => some ((getMatches l pfx).1)
         | .error _ => none) := by
  obtain ⟨hb, _⟩ := prefix_result_ok f ns Context.all pfx res hres
  have hall : matchesOf (PrefixSearch none ns Context.all pfx f) c
      = (List.lookup c (itersSpec f (roundUUIDDownIfOdd pfx Context.all)
          (searchContexts none ns Context.all))).map (fun l => (getMatches l pfx).1) := by
    rw [matchesOf_eq, hb]
  rw [hall]
  rw [lookup_itersSpec f (roundUUIDDownIfOdd pfx Context.all) c
      (searchContexts none ns Context.all) (searchContexts_nodup none ns Context.all)
      (by rw [searchContexts_none]; exact hmem)]
  cases hf : f c (roundUUIDDownIfOdd pfx Context.all) with
  | ok l => rfl
  | error e => rfl

theorem truncsOf_all_ok (f : Context → String → Except String (List Record))
    (ns pfx : String) (c : Context) (res : SearchResult)
    (hmem : c ∈ ossContexts)
    (hres : (PrefixSearch none ns Context.all pfx f).result = .ok res) :
    truncsOf (PrefixSearch none ns Context.all pfx f) c
      = (match f c (roundUUIDDownIfOdd pfx Context.all) with
         | .ok l => some ((getMatches l pfx).2)
         | .error _ => none) := by
  obtain ⟨hb, _⟩ := prefix_result_ok f ns Context.all pfx res hres
  have hall : truncsOf (PrefixSearch none ns Context.all pfx f) c
      = (List.lookup c (itersSpec f (roundUUIDDownIfOdd pfx Context.all)
          (searchContexts none ns Context.all))).map (fun l => (getMatches l pfx).2) := by
    rw [truncsOf_eq, hb]
  rw [hall]
  rw [lookup_itersSpec f (roundUUIDDownIfOdd pfx Context.all) c
      (searchContexts none ns Context.all) (searchContexts_nodup none ns Context.all)
      (by rw [searchContexts_none]; exact hmem)]
  cases hf : f c (roundUUIDDownIfOdd pfx Context.all) with
  | ok l => rfl
  | error e => rfl

theorem matchesOf_single (f : Context → String → Except String (List Record))
    (ns pfx : String) (c : Context) (hmem : c ∈ ossContexts) :
    matchesOf (PrefixSearch none ns c pfx f) c
      = (match f c (roundUUIDDownIfOdd pfx c) with
         | .ok l => some ((getMatches l pfx).1)
         | .error _ => none) := by
  have hcs : searchContexts none ns c = [c] := by
    rw [searchContexts_none, mem_ossContexts_expand c hmem]
  rw [matchesOf_eq, hcs]
  cases hf : f c (roundUUIDDownIfOdd pfx c) with
  | ok l =>
    have hb : (buildIters f (roundUUIDDownIfOdd pfx c) [c]).1 = .ok [(c, l)] := by
      simp [buildIters, hf, Except.map]
    rw [hb]
    simp [List.lookup]
  | error e =>
    cases hw : isWhitelistedError e with
    | true =>
      have hb : (buildIters f (roundUUIDDownIfOdd pfx c) [c]).1 = .ok [] := by
        simp [buildIters, hf, hw]
      rw [hb]
      simp [List.lookup]
    | false =>
      have hb : (buildIters f (roundUUIDDownIfOdd pfx c) [c]).1 = .error e := by
        simp [buildIters, hf, hw]
      rw [hb]

theorem truncsOf_single (f : Context → String → Except String (List Record))
    (ns pfx : String) (c : Context) (hmem : c ∈ ossContexts) :
    truncsOf (PrefixSearch none ns c pfx f) c
      = (match f c (roundUUIDDownIfOdd pfx c) with
         | .ok l => some ((getMatches l pfx).2)
         | .error _ => none) := by
  have hcs : searchContexts none ns c = [c] := by
    rw [searchContexts_none, mem_ossContexts_expand c hmem]
  rw [truncsOf_eq, hcs]
  cases hf : f c (roundUUIDDownIfOdd pfx c) with
  | ok l =>
    have hb : (buildIters f (roundUUIDDownIfOdd pfx c) [c]).1 = .ok [(c, l)] := by
      simp [buildIters, hf, Except.map]
    rw [hb]
    simp [List.lookup]
  | error e =>
    cases hw : isWhitelistedError e with
    | true =>
      have hb : (buildIters f (roundUUIDDownIfOdd pfx c) [c]).1 = .ok [] := by
        simp [buildIters, hf, hw]
      rw [hb]
      simp [List.lookup]
    | false =>
      have hb : (buildIters f (roundUUIDDownIfOdd pfx c) [c]).1 = .error e := by
        simp [buildIters, hf, hw]
      rw [hb]

/-- Counterexample for C2: on a store whose jobs collection holds twenty-one
identifiers with the 3-character-prefix "wea" and the job "web", a request
with context "all" and prefix "web" normalizes the prefix to "we" (the
requested context "all" is not "jobs"), so the jobs iterator is flooded with
"wea…" candidates: the per-context matches and truncation flag differ from
the single-context jobs request, which queries with "web" unchanged. -/
theorem prefix_all_vs_single_counterexample :
    matchesOf (PrefixSearch none "default" Context.all "web" cexStore) Context.jobs
      ≠ matchesOf (PrefixSearch none "default" Context.jobs "web" cexStore) Context.jobs ∧
    truncsOf (PrefixSearch none "default" Context.all "web" cexStore) Context.jobs
      ≠ truncsOf (PrefixSearch none "default" Context.jobs "web" cexStore) Context.jobs ∧
    matchesOf (PrefixSearch none "default" Context.all "web" cexStore) Context.jobs
      = some [] ∧
    matchesOf (PrefixSearch none "default" Context.jobs "web" cexStore) Context.jobs
      = some ["web"] ∧
    truncsOf (PrefixSearch none "default" Context.all "web" cexStore) Context.jobs
      = some true ∧
    truncsOf (PrefixSearch none "default" Context.jobs "web" cexStore) Context.jobs
      = some false := by
  decide

/-- C2 (amended): a successful prefix-search request with context "all"
yields, for a concrete top-level context, the same matches and truncation
flag as the single-context request, provided the context is not jobs or the
hyphen-stripped prefix length is even; in the remaining case (jobs context,
odd hyphen-stripped prefix length) the "all" request normalizes the prefix
with the requested union context, dropping its last character even for the
jobs iterator, and the per-context results may differ. -/
theorem prefix_all_refines_single
    (f : Context → String → Except String (List Record))
    (ns pfx : String) (c : Context) (res : SearchResult)
    (hmem : c ∈ ossContexts)
    (hjob : c = Context.jobs → (pfx.length - pfx.data.count '-') % 2 = 0)
    (hres : (PrefixSearch none ns Context.all pfx f).result = .ok res) :
    matchesOf (PrefixSearch none ns Context.all pfx f) c
      = matchesOf (PrefixSearch none ns c pfx f) c ∧
    truncsOf (PrefixSearch none ns Context.all pfx f) c
      = truncsOf (PrefixSearch none ns c pfx f) c := by
  have hall : Context.all ≠ Context.jobs := by decide
  have hpfx : roundUUIDDownIfOdd pfx Context.all = roundUUIDDownIfOdd pfx c := by
    by_cases hc : c = Context.jobs
    · have he := hjob hc
      subst hc
      simp [roundUUIDDownIfOdd, hall, he]
    · simp [roundUUIDDownIfOdd, hall, hc]
  constructor
  · rw [matchesOf_all_ok f ns pfx c res hmem hres, matchesOf_single f ns pfx c hmem, hpfx]
  · rw [truncsOf_all_ok f ns pfx c res hmem hres, truncsOf_single f ns pfx c hmem, hpfx]

/-- Witness for C2 (amended) on an empty store, nodes context. -/
theorem prefix_all_refines_single_witness :
    matchesOf (PrefixSearch none "default" Context.all "ab" (fun _ _ => .ok []))
        Context.nodes
      = matchesOf (PrefixSearch none "default" Context.nodes "ab" (fun _ _ => .ok []))
        Context.nodes :=
  (prefix_all_refines_single (fun _ _ => .ok []) "default" "ab" Context.nodes
    (SearchResult.mk
      [(Context.allocs, []), (Context.jobs, []), (Context.nodes, []), (Context.evals, []),
       (Context.deployments, []), (Context.plugins, []), (Context.volumes, []),
       (Context.scalingPolicies, []), (Context.namespaces, [])]
      [(Context.allocs, false), (Context.jobs, false), (Context.nodes, false),
       (Context.evals, false), (Context.deployments, false), (Context.plugins, false),
       (Context.volumes, false), (Context.scalingPolicies, false),
       (Context.namespaces, false)])
    (by decide) (by decide) (by decide)).1

/-- Counterexample for C3: with a store whose nodes collection rejects the
prefix "zz" with a whitelisted UUID-format error, the request still succeeds
but the nodes context is absent from the matches key set, so the key set is a
strict subset of the expansion of "all". -/
theorem keysets_counterexample :
    resultIsOk (PrefixSearch none "default" Context.all "zz" cexWlStore) = true ∧
    keysOfResult (PrefixSearch none "default" Context.all "zz" cexWlStore)
      ≠ expandContext Context.all ∧
    Context.nodes ∈ expandContext Context.all ∧
    Context.nodes ∉ keysOfResult (PrefixSearch none "default" Context.all "zz" cexWlStore) := by
  decide

/-- C3 (amended): for every request, the matches map and the truncations map
have identical key sets; for a successful prefix request the key set is the
expansion of the requested context restricted to the contexts whose iterator
acquisition succeeded (the full expansion when no whitelisted prefix-format
error occurred), and for a successful fuzzy request it is the full expansion
of the fuzzy union context. -/
theorem keysets_identical_succeeded
    (f : Context → String → Except String (List Record))
    (ns : String) (reqContext : Context) (pfx text : String)
    (res res2 : SearchResult)
    (h1 : (PrefixSearch none ns reqContext pfx f).result = .ok res)
    (h2 : (FuzzySearch none ns text f).result = some (.ok res2)) :
    (res.Matches.map Prod.fst = res.Truncations.map Prod.fst ∧
      res.Matches.map Prod.fst
        = (searchContexts none ns reqContext).filter
            (fun c => exceptIsOk (f c (roundUUIDDownIfOdd pfx reqContext)))) ∧
    (res2.Matches.map Prod.fst = res2.Truncations.map Prod.fst ∧
      res2.Matches.map Prod.fst = searchContexts none ns Context.fuzzy) := by
  obtain ⟨hb, hres⟩ := prefix_result_ok f ns reqContext pfx res h1
  obtain ⟨ts, hts, hbf, hres2⟩ := fuzzy_result_ok f ns text res2 h2
  subst hres
  subst hres2
  constructor
  · obtain ⟨hm, ht⟩ := assembleResult_keys pfx
      (itersSpec f (roundUUIDDownIfOdd pfx reqContext) (searchContexts none ns reqContext))
    exact ⟨hm.trans ht.symm, hm.trans (itersSpec_keys f (roundUUIDDownIfOdd pfx reqContext)
      (searchContexts none ns reqContext))⟩
  · obtain ⟨hm, ht⟩ := assembleFuzzyResult_keys ts
      (itersSpec f "" (searchContexts none ns Context.fuzzy))
    refine ⟨hm.trans ht.symm, hm.trans ?_⟩
    rw [itersSpec_keys]
    obtain ⟨_, hok⟩ := buildItersFuzzy_ok f (searchContexts none ns Context.fuzzy) _ hbf
    rw [List.filter_eq_self.mpr]
    intro c hc
    obtain ⟨l, hl⟩ := hok c hc
    rw [hl]
    rfl

/-- Witness for C3 (amended) on an empty store. -/
theorem keysets_identical_witness :
    (SearchResult.mk [(Context.jobs, [])] [(Context.jobs, false)]).Matches.map Prod.fst
      = (SearchResult.mk [(Context.jobs, [])]
          [(Context.jobs, false)]).Truncations.map Prod.fst :=
  (keysets_identical_succeeded (fun _ _ => .ok []) "default" Context.jobs "a" "x"
    (SearchResult.mk [(Context.jobs, [])] [(Context.jobs, false)])
    (SearchResult.mk
      [(Context.nodes, []), (Context.namespaces, []), (Context.jobs, []),
       (Context.allocs, [])]
      [(Context.nodes, false), (Context.namespaces, false), (Context.jobs, false),
       (Context.allocs, false)])
    (by decide) (by decide)).1.1

/-- C8: in prefix search, when every admitted context's iterator acquisition
either succeeds or fails with a whitelisted prefix-format error, the request
succeeds, a whitelisted-error context contributes no matches entry while
every successfully acquired context contributes its collected matches and
truncation flag; and when some admitted context fails with an error outside
the whitelist, the whole request aborts surfacing a non-whitelisted store
error obtained from one of the contexts. -/
theorem whitelist_error_handling
    (f : Context → String → Except String (List Record))
    (ns : String) (reqContext : Context) (pfx : String) :
    ((∀ c ∈ searchContexts none ns reqContext,
        okOrWl (f c (roundUUIDDownIfOdd pfx reqContext)) = true) →
      resultIsOk (PrefixSearch none ns reqContext pfx f) = true ∧
      (∀ c ∈ searchContexts none ns reqContext, ∀ e,
        f c (roundUUIDDownIfOdd pfx reqContext) = .error e →
        matchesOf (PrefixSearch none ns reqContext pfx f) c = none) ∧
      (∀ c ∈ searchContexts none ns reqContext, ∀ l,
        f c (roundUUIDDownIfOdd pfx reqContext) = .ok l →
        matchesOf (PrefixSearch none ns reqContext pfx f) c = some ((getMatches l pfx).1) ∧
        truncsOf (PrefixSearch none ns reqContext pfx f) c = some ((getMatches l pfx).2))) ∧
    (∀ c ∈ searchContexts none ns reqContext,
      okOrWl (f c (roundUUIDDownIfOdd pfx reqContext)) = false →
      ∃ e, (PrefixSearch none ns reqContext pfx f).result = .error (.storeError e) ∧
        isWhitelistedError e = false ∧
        ∃ c2, c2 ∈ searchContexts none ns reqContext ∧
          f c2 (roundUUIDDownIfOdd pfx reqContext) = .error e) := by
  constructor
  · intro hall
    have hb := buildIters_all_ok f (roundUUIDDownIfOdd pfx reqContext)
      (searchContexts none ns reqContext) hall
    have hr := result_eq f ns reqContext pfx
    rw [hb] at hr
    have hok : (PrefixSearch none ns reqContext pfx f).result
        = .ok (assembleResult pfx (itersSpec f (roundUUIDDownIfOdd pfx reqContext)
            (searchContexts none ns reqContext))) := hr
    refine ⟨by simp [resultIsOk, hok], ?_, ?_⟩
    · intro c hc e hf
      have hm : matchesOf (PrefixSearch none ns reqContext pfx f) c
          = (List.lookup c (itersSpec f (roundUUIDDownIfOdd pfx reqContext)
              (searchContexts none ns reqContext))).map (fun l => (getMatches l pfx).1) := by
        rw [matchesOf_eq, hb]
      rw [hm, lookup_itersSpec f (roundUUIDDownIfOdd pfx reqContext) c
        (searchContexts none ns reqContext) (searchContexts_nodup none ns reqContext) hc, hf]
      rfl
    · intro c hc l hf
      have hm : matchesOf (PrefixSearch none ns reqContext pfx f) c
          = (List.lookup c (itersSpec f (roundUUIDDownIfOdd pfx reqContext)
              (searchContexts none ns reqContext))).map (fun l => (getMatches l pfx).1) := by
        rw [matchesOf_eq, hb]
      have ht : truncsOf (PrefixSearch none ns reqContext pfx f) c
          = (List.lookup c (itersSpec f (roundUUIDDownIfOdd pfx reqContext)
              (searchContexts none ns reqContext))).map (fun l => (getMatches l pfx).2) := by
        rw [truncsOf_eq, hb]
      rw [hm, ht, lookup_itersSpec f (roundUUIDDownIfOdd pfx reqContext) c
        (searchContexts none ns reqContext) (searchContexts_nodup none ns reqContext) hc, hf]
      exact ⟨rfl, rfl⟩
  · intro c hc hbad
    obtain ⟨e, he, hwl, c2, hc2, hfe⟩ := buildIters_fatal f (roundUUIDDownIfOdd pfx reqContext)
      (searchContexts none ns reqContext) c hc hbad
    refine ⟨e, ?_, hwl, c2, hc2, hfe⟩
    have hr := result_eq f ns reqContext pfx
    rw [he] at hr
    exact hr

/-- Witness for C8 on a store where the nodes context fails with a
whitelisted UUID-format error and the others are empty. -/
theorem whitelist_error_handling_witness :
    resultIsOk (PrefixSearch none "default" Context.all "zz" cexWlStore) = true :=
  ((whitelist_error_handling cexWlStore "default" Context.all "zz").1 (by decide)).1

/-- C7: when the access gate denies admission, both endpoints return a
permission error, carry no partial results, and no store iterator is opened
for any context (the opened-contexts observation is empty, and the outcome is
independent of the store). -/
theorem permission_denied_fails_closed
    (acl : Option ACL) (ns : String) (reqContext : Context) (pfx text : String)
    (f g : Context → String → Except String (List Record))
    (h1 : sufficientSearchPerms acl ns reqContext = false)
    (h2 : sufficientSearchPerms acl ns Context.fuzzy = false) :
    PrefixSearch acl ns reqContext pfx f
      = ⟨.error .permissionDenied, []⟩ ∧
    FuzzySearch acl ns text g = ⟨some (.error .permissionDenied), []⟩ := by
  constructor
  · simp [PrefixSearch, h1]
  · simp [FuzzySearch, h2]

/-- Witness for C7 with an ACL holding neither capability. -/
theorem permission_denied_witness :
    PrefixSearch (some ⟨false, fun _ => false⟩) "default" Context.jobs "web"
        (fun _ _ => .ok []) = ⟨.error .permissionDenied, []⟩ :=
  (permission_denied_fails_closed (some ⟨false, fun _ => false⟩) "default" Context.jobs
    "web" "x" (fun _ _ => .ok []) (fun _ _ => .ok []) rfl rfl).1

/-! Helper lemmas relating plain (metacharacter-free) patterns to literal
substring search. -/

theorem compileTok_plain (c : Char) (h : isPlainLit c = true) :
    compileTok c = some (RTok.lit c) := by
  rw [isPlainLit, Bool.and_eq_true, Bool.not_eq_true'] at h
  rw [compileTok, if_neg (by simp [h.1]), if_pos h.2]

theorem compile_plain : ∀ (pat : List Char), (∀ c ∈ pat, isPlainLit c = true) →
    pat.mapM compileTok = some (pat.map RTok.lit)
  | [] => by intro _; rfl
  | c :: cs => by
    intro h
    have hc := compileTok_plain c (h c (List.mem_cons_self c cs))
    have ih := compile_plain cs (fun d hd => h d (List.mem_cons_of_mem c hd))
    rw [List.mapM_cons, hc, ih]
    rfl

theorem toksMatch_lits : ∀ (pat cs : List Char),
    toksMatchAt (pat.map RTok.lit) cs = pat.isPrefixOf cs
  | [], _ => by simp [toksMatchAt, List.isPrefixOf]
  | p :: ps, [] => by simp [toksMatchAt, List.isPrefixOf]
  | p :: ps, c :: cs => by
    rw [List.map_cons]
    rw [show toksMatchAt (RTok.lit p :: ps.map RTok.lit) (c :: cs)
        = (rtokMatches (RTok.lit p) c && toksMatchAt (ps.map RTok.lit) cs) from rfl]
    rw [toksMatch_lits ps cs]
    rfl

theorem reFind_lits (pat : List Char) : ∀ (cs : List Char),
    reFind (pat.map RTok.lit) cs = subIdx pat cs
  | [] => by rw [reFind, subIdx, toksMatch_lits]
  | c :: cs => by
    rw [reFind, subIdx, toksMatch_lits, reFind_lits pat cs]

/-- Counterexample for C4: the caller-supplied text is compiled as a regular
expression, so text "a.c" matches the record named "abc" at position 0 even
though "a.c" never occurs literally (as a contiguous substring) in "abc". -/
theorem fuzzy_literal_counterexample :
    compileRegex "a.c" = some [RTok.lit 'a', RTok.dot, RTok.lit 'c'] ∧
    (getFuzzyMatches [Record.node "n1" "abc"] [RTok.lit 'a', RTok.dot, RTok.lit 'c']).1
      = ["abc"] ∧
    strContains "abc" "a.c" = false ∧
    subIdx "a.c".data "abc".data = none := by
  decide

/-- C4 (amended): a record is a fuzzy match iff the caller text, compiled as a
regular expression, matches somewhere in the record's name, and the recorded
position is the first regex-match position; only when the text contains no
regex metacharacter (here: plain literal characters) does this coincide with
literal contiguous-substring search with the position of the first literal
occurrence. -/
theorem fuzzy_match_plain_text_literal (text name : String)
    (h : ∀ c ∈ text.data, isPlainLit c = true) :
    compileRegex text = some (text.data.map RTok.lit) ∧
    reFindS (text.data.map RTok.lit) name = subIdx text.data name.data ∧
    (∀ n : Nat, (scanFuzzy (text.data.map RTok.lit) (n + 1) [Record.node "n1" name]).1
      = (match subIdx text.data name.data with
         | some p => [(⟨name, p⟩ : FMatch)]
         | none => [])) := by
  have hm : reFindS (text.data.map RTok.lit) name = subIdx text.data name.data :=
    reFind_lits text.data name.data
  refine ⟨compile_plain text.data h, hm, ?_⟩
  intro n
  rw [scanFuzzy_cons]
  have hr : recordName (Record.node "n1" name) = name := rfl
  rw [hr, hm]
  cases hs : subIdx text.data name.data with
  | some p => simp [scanFuzzy_nil]
  | none => simp [scanFuzzy_nil]

/-- Witness for C4 (amended): the plain text "web" behaves as literal
substring search on the name "my-web-app". -/
theorem fuzzy_match_plain_text_witness :
    reFindS ("web".data.map RTok.lit) "my-web-app"
      = subIdx "web".data "my-web-app".data :=
  (fuzzy_match_plain_text_literal "web" "my-web-app" (by decide)).2.1

/-- C10: evaluation of the code at the failing input — with caller text "("
the fuzzy request passes the gate, opens the iterators, then panics inside
`regexp.MustCompile` (modelled as `result = none`): the request aborts with
neither a normal return nor an error value. -/
theorem fuzzy_mustcompile_panic :
    (FuzzySearch none "default" "(" (fun _ _ => .ok [])).result = none ∧
    compileRegex "(" = none ∧
    (FuzzySearch none "default" "(" (fun _ _ => .ok [])).opened = fuzzyContexts := by
  decide
